import Mathlib

/-!
Verification of the window-placement layout engine of `app22.py`.

The engine consists of:
* a fixed trigonometric modulation function `f` and its normalisation
  `normalized_f`;
* the row-center computation (`num_rows`, `row_y_positions`);
* the ideal window count `ideal_windows` derived from the panel width;
* the per-row horizontal position computation `compute_x_positions`.

Real-valued Python arithmetic is modelled over `ℝ`.  Python division
raises `ZeroDivisionError` on a zero divisor, so it is modelled by
`pydiv`, returning `none` exactly when the divisor is zero, and
`compute_x_positions` returns `Option (List ℝ)`: `none` means the call
raises, `some xs` means it returns the list `xs` normally.
-/

namespace App22

/-- The mean Fourier series function from the source:
`f(x) = 2.79909091 + 0.07663636*cos(x) - 0.17145455*sin(x) + 1.8216*cos(2*x)`. -/
noncomputable def f (x : ℝ) : ℝ :=
  2.79909091 + 0.07663636 * Real.cos x - 0.17145455 * Real.sin x
    + 1.8216 * Real.cos (2 * x)

/-- Normalisation of `f` from the source: `(f(x) - 2.79909091) / 2.00938`. -/
noncomputable def normalized_f (x : ℝ) : ℝ :=
  (f x - 2.79909091) / 2.00938

/-- Python float division: raises (here: `none`) when the divisor is zero. -/
noncomputable def pydiv (a b : ℝ) : Option ℝ :=
  if b = 0 then none else some (a / b)

/-- Python's builtin `round` (banker's rounding: ties go to the even
integer; all other values go to the nearest integer). -/
noncomputable def py_round (x : ℝ) : ℤ :=
  if x - (⌊x⌋ : ℝ) = 1 / 2 then (if 2 ∣ ⌊x⌋ then ⌊x⌋ else ⌊x⌋ + 1)
  else round x

/-- The period `2π` of the modulation function (`fourier_period` in the source). -/
noncomputable def fourier_period : ℝ := 2 * Real.pi

/-- `ideal_windows = round(panel_width / fourier_period)` from the source. -/
noncomputable def ideal_windows (panel_width : ℝ) : ℤ :=
  py_round (panel_width / fourier_period)

/-- Row count from the source:
`num_rows = int(np.floor((panel_height - offset) / row_spacing)) + 1`,
overridden to `1` when `panel_height < offset`. -/
noncomputable def num_rows (panel_height row_spacing offset : ℝ) : ℤ :=
  if panel_height < offset then 1
  else ⌊(panel_height - offset) / row_spacing⌋ + 1

/-- The list comprehension
`[offset + i * row_spacing for i in range(num_rows)]` from the source. -/
noncomputable def row_y_list (panel_height row_spacing offset : ℝ) : List ℝ :=
  (List.range (num_rows panel_height row_spacing offset).toNat).map
    (fun i : ℕ => offset + (i : ℝ) * row_spacing)

/-- Row y-positions from the source: the comprehension above, overridden to
`[panel_height / 2.0]` when `panel_height < row_spacing`. -/
noncomputable def row_y_positions (panel_height row_spacing offset : ℝ) : List ℝ :=
  if panel_height < row_spacing then [panel_height / 2.0]
  else row_y_list panel_height row_spacing offset

/-- The clamp step from the source: `if x < half_w: x = half_w`,
`elif x > panel_width - half_w: x = panel_width - half_w`. -/
noncomputable def clamp_x (panel_width half_w x : ℝ) : ℝ :=
  if x < half_w then half_w
  else if x > panel_width - half_w then panel_width - half_w
  else x

/-- `base_x = (j + 0.5) * (panel_width / num)` from the loop body
(as a total function of `ℝ`; only used where `num ≠ 0`). -/
noncomputable def base_x (panel_width : ℝ) (num j : ℕ) : ℝ :=
  ((j : ℝ) + 0.5) * (panel_width / (num : ℝ))

/-- `u = (j + 0.5) * (2 * np.pi / num)` from the loop body. -/
noncomputable def mod_u (num j : ℕ) : ℝ :=
  ((j : ℝ) + 0.5) * (2 * Real.pi / (num : ℝ))

/-- `x_modulated = base_x + displacement_factor * mod` (before clamping),
with `displacement_factor = 1.0`. -/
noncomputable def x_modulated (panel_width : ℝ) (num j : ℕ) : ℝ :=
  base_x panel_width num j + 1.0 * normalized_f (mod_u num j)

/-- The value appended to `positions` for index `j` (clamped modulated
position) when the divisions succeed. -/
noncomputable def window_x_pure (panel_width window_width : ℝ) (num j : ℕ) : ℝ :=
  clamp_x panel_width (window_width / 2.0) (x_modulated panel_width num j)

/-- One loop iteration of `compute_x_positions`, with Python's division
semantics made explicit: both divisions by `num` are performed. -/
noncomputable def window_x (panel_width window_width : ℝ) (num j : ℕ) : Option ℝ :=
  (pydiv panel_width (num : ℝ)).bind fun cell =>
    (pydiv (2 * Real.pi) (num : ℝ)).bind fun du =>
      some (clamp_x panel_width (window_width / 2.0)
        (((j : ℝ) + 0.5) * cell + 1.0 * normalized_f (((j : ℝ) + 0.5) * du)))

/-- The loop of `compute_x_positions`, iterating over the given index list
and collecting the computed positions; a raised division error aborts. -/
noncomputable def build_positions (panel_width window_width : ℝ) (num : ℕ) :
    List ℕ → Option (List ℝ)
  | [] => some []
  | j :: rest =>
      (window_x panel_width window_width num j).bind fun x =>
        (build_positions panel_width window_width num rest).map
          (fun xs => x :: xs)

/-- `compute_x_positions(num)` from the source: `for j in range(num)`
compute the clamped modulated position and append it. -/
noncomputable def compute_x_positions (panel_width window_width : ℝ)
    (num : ℕ) : Option (List ℝ) :=
  build_positions panel_width window_width num (List.range num)

/-! ### Basic evaluation lemmas -/

theorem window_x_eq_pure (panel_width window_width : ℝ) {num : ℕ}
    (hnum : num ≠ 0) (j : ℕ) :
    window_x panel_width window_width num j
      = some (window_x_pure panel_width window_width num j) := by
  have hcast : (num : ℝ) ≠ 0 := Nat.cast_ne_zero.mpr hnum
  simp [window_x, pydiv, hcast, window_x_pure, x_modulated, base_x, mod_u]

theorem build_positions_eq_map (panel_width window_width : ℝ) {num : ℕ}
    (hnum : num ≠ 0) (l : List ℕ) :
    build_positions panel_width window_width num l
      = some (l.map (window_x_pure panel_width window_width num)) := by
  induction l with
  | nil => rfl
  | cons j rest ih =>
      simp [build_positions, window_x_eq_pure panel_width window_width hnum, ih]

theorem compute_x_positions_eq_map (panel_width window_width : ℝ) {num : ℕ}
    (hnum : num ≠ 0) :
    compute_x_positions panel_width window_width num
      = some ((List.range num).map (window_x_pure panel_width window_width num)) :=
  build_positions_eq_map panel_width window_width hnum (List.range num)

end App22

namespace App22

theorem row_y_list_height_lt_offset {panel_height row_spacing offset : ℝ}
    (h : panel_height < offset) :
    row_y_list panel_height row_spacing offset = [offset] := by
  rw [row_y_list, num_rows, if_pos h]
  have h1 : (1 : ℤ).toNat = 1 := rfl
  rw [h1]
  simp only [List.range_succ, List.range_zero, List.nil_append,
    List.map_cons, List.map_nil]
  norm_num

/-- C3: the claim says that for `height < offset` the result is the single
element `[height]` and that this branch takes priority over the
`height < spacing` branch.  Counterexample: at `height = 1`, `spacing = 0.5`,
`offset = 2` (all claim hypotheses hold and `height ≥ spacing`), the code
returns `[offset] = [2]`, not `[height] = [1]`. -/
theorem row_y_height_lt_offset_counterexample :
    row_y_positions 1 0.5 2 ≠ [1] ∧ row_y_positions 1 0.5 2 = [2] := by
  have key : row_y_positions 1 0.5 2 = [2] := by
    rw [row_y_positions, if_neg (by norm_num)]
    exact row_y_list_height_lt_offset (by norm_num)
  refine ⟨?_, key⟩
  rw [key]
  simp

/-- C3 (amended): for `height > 0`, `spacing > 0`, `offset ≥ 0` with
`height < offset`, the result is `[offset]` when `height ≥ spacing`, and
the `height < spacing` branch takes priority, giving `[height / 2]`,
otherwise. -/
theorem row_y_height_lt_offset (panel_height row_spacing offset : ℝ)
    (hh : 0 < panel_height) (hs : 0 < row_spacing) (ho : 0 ≤ offset)
    (hlt : panel_height < offset) :
    (row_spacing ≤ panel_height →
      row_y_positions panel_height row_spacing offset = [offset]) ∧
    (panel_height < row_spacing →
      row_y_positions panel_height row_spacing offset = [panel_height / 2]) := by
  constructor
  · intro hsp
    rw [row_y_positions, if_neg (not_lt.mpr hsp)]
    exact row_y_list_height_lt_offset hlt
  · intro hsp
    rw [row_y_positions, if_pos hsp]
    norm_num

theorem row_y_height_lt_offset_witness :
    ((0:ℝ) < 1 ∧ (0:ℝ) < 0.5 ∧ (0:ℝ) ≤ 2 ∧ (1:ℝ) < 2) ∧
    (((0.5:ℝ) ≤ 1 → row_y_positions 1 0.5 2 = [2]) ∧
      ((1:ℝ) < 0.5 → row_y_positions 1 0.5 2 = [1 / 2])) :=
  ⟨by norm_num, row_y_height_lt_offset 1 0.5 2 (by norm_num) (by norm_num)
    (by norm_num) (by norm_num)⟩

/-- C6: for `height > 0`, `spacing > 0`, `offset ≥ 0` the row-center list has
at least one element, and when additionally `height ≥ offset` every value in
it is nonnegative. -/
theorem row_y_count_and_nonneg (panel_height row_spacing offset : ℝ)
    (hh : 0 < panel_height) (hs : 0 < row_spacing) (ho : 0 ≤ offset) :
    1 ≤ (row_y_positions panel_height row_spacing offset).length ∧
    (offset ≤ panel_height →
      ∀ y ∈ row_y_positions panel_height row_spacing offset, 0 ≤ y) := by
  constructor
  · rw [row_y_positions]
    split
    · simp
    · rw [row_y_list, List.length_map, List.length_range]
      have h1 : 1 ≤ num_rows panel_height row_spacing offset := by
        rw [num_rows]
        split
        · exact le_refl 1
        · have hnonneg : (0:ℝ) ≤ (panel_height - offset) / row_spacing := by
            apply div_nonneg _ hs.le
            linarith [not_lt.mp (by assumption : ¬ panel_height < offset)]
          have := Int.le_floor.mpr (by exact_mod_cast hnonneg :
            ((0:ℤ):ℝ) ≤ (panel_height - offset) / row_spacing)
          omega
      omega
  · intro hoh y hy
    rw [row_y_positions] at hy
    split at hy
    · rw [List.mem_singleton] at hy
      rw [hy]
      linarith
    · rw [row_y_list, List.mem_map] at hy
      obtain ⟨i, _, rfl⟩ := hy
      exact add_nonneg ho (mul_nonneg (Nat.cast_nonneg i) hs.le)

theorem row_y_count_and_nonneg_witness :
    ((0:ℝ) < 15 ∧ (0:ℝ) < 3.2 ∧ (0:ℝ) ≤ 2.3) ∧
    (1 ≤ (row_y_positions 15 3.2 2.3).length ∧
      ((2.3:ℝ) ≤ 15 → ∀ y ∈ row_y_positions 15 3.2 2.3, 0 ≤ y)) :=
  ⟨by norm_num, row_y_count_and_nonneg 15 3.2 2.3 (by norm_num) (by norm_num)
    (by norm_num)⟩

/-- C7: for `height > 0`, `spacing > 0`, `offset ≥ 0` the row-center list is
strictly ascending. -/
theorem row_y_sorted (panel_height row_spacing offset : ℝ)
    (hh : 0 < panel_height) (hs : 0 < row_spacing) (ho : 0 ≤ offset) :
    (row_y_positions panel_height row_spacing offset).Sorted (· < ·) := by
  rw [row_y_positions]
  split
  · exact List.sorted_singleton _
  · rw [row_y_list]
    refine List.Pairwise.map _ ?_ (List.pairwise_lt_range _)
    intro a b hab
    have : (a : ℝ) * row_spacing < (b : ℝ) * row_spacing :=
      mul_lt_mul_of_pos_right (by exact_mod_cast hab) hs
    linarith

theorem row_y_sorted_witness :
    ((0:ℝ) < 15 ∧ (0:ℝ) < 3.2 ∧ (0:ℝ) ≤ 2.3) ∧
    (row_y_positions 15 3.2 2.3).Sorted (· < ·) :=
  ⟨by norm_num, row_y_sorted 15 3.2 2.3 (by norm_num) (by norm_num) (by norm_num)⟩

/-- C8: `computeRowCenters(15, 3.2, 2.3)` returns exactly the four centers
`[2.3, 5.5, 8.7, 11.9]` (since `⌊(15 − 2.3)/3.2⌋ = 3` gives four rows), and
not the five-element list ending at `15.1`. -/
theorem row_y_concrete_15 :
    row_y_positions 15 3.2 2.3 = [2.3, 5.5, 8.7, 11.9] ∧
    (row_y_positions 15 3.2 2.3).length = 4 ∧
    row_y_positions 15 3.2 2.3 ≠ [2.3, 5.5, 8.7, 11.9, 15.1] := by
  have hfloor : ⌊((15:ℝ) - 2.3) / 3.2⌋ = 3 := by
    rw [Int.floor_eq_iff]
    constructor <;> norm_num
  have key : row_y_positions 15 3.2 2.3 = [2.3, 5.5, 8.7, 11.9] := by
    rw [row_y_positions, if_neg (by norm_num), row_y_list, num_rows,
      if_neg (by norm_num), hfloor]
    have h4 : ((3 : ℤ) + 1).toNat = 4 := rfl
    rw [h4]
    simp only [List.range_succ, List.range_zero, List.nil_append,
      List.cons_append, List.map_cons, List.map_nil, List.map_append]
    norm_num
  refine ⟨key, by rw [key]; rfl, by rw [key]; simp⟩

end App22

namespace App22

theorem clamp_x_mem_interval (panel_width half_w x : ℝ)
    (h : half_w ≤ panel_width - half_w) :
    half_w ≤ clamp_x panel_width half_w x ∧
      clamp_x panel_width half_w x ≤ panel_width - half_w := by
  rw [clamp_x]
  split_ifs with h1 h2
  · exact ⟨le_refl _, h⟩
  · exact ⟨h, le_refl _⟩
  · exact ⟨not_lt.mp h1, not_lt.mp h2⟩

/-- C1: for `n ≥ 1` and `panelWidth > windowWidth = 2.0 > 0`, every element
of the list returned by `compute_x_positions` lies in the closed interval
`[windowWidth / 2, panelWidth − windowWidth / 2]`. -/
theorem compute_x_positions_clamped (n : ℕ) (hn : 1 ≤ n)
    (panel_width : ℝ) (hpw : 2 < panel_width) :
    ∀ xs, compute_x_positions panel_width 2 n = some xs →
      ∀ x ∈ xs, 2 / 2 ≤ x ∧ x ≤ panel_width - 2 / 2 := by
  intro xs hxs x hx
  rw [compute_x_positions_eq_map panel_width 2 (by omega),
    Option.some_inj] at hxs
  subst hxs
  rw [List.mem_map] at hx
  obtain ⟨j, _, rfl⟩ := hx
  have h20 : (2 : ℝ) / 2.0 = 2 / 2 := by norm_num
  have hhalf : (2 : ℝ) / 2.0 ≤ panel_width - 2 / 2.0 := by
    rw [h20]
    linarith
  obtain ⟨ha, hb⟩ := clamp_x_mem_interval panel_width (2 / 2.0)
    (x_modulated panel_width n j) hhalf
  rw [window_x_pure]
  exact ⟨by linarith, by linarith⟩

theorem compute_x_positions_clamped_witness :
    (1 ≤ 5 ∧ (2:ℝ) < 50) ∧
    (∀ xs, compute_x_positions 50 2 5 = some xs →
      ∀ x ∈ xs, 2 / 2 ≤ x ∧ x ≤ 50 - 2 / 2) :=
  ⟨⟨by norm_num, by norm_num⟩,
    compute_x_positions_clamped 5 (by norm_num) 50 (by norm_num)⟩

/-- C2 (counterexample): the claim says `compute_x_positions` with window
count `0` fails with a division-by-zero fault.  In the source, the loop
`for j in range(num)` has an empty range when `num = 0`, so the division by
`num` in the loop body is never executed: at `panel_width = 50`,
`window_width = 2` the call returns the normal result `[]` (`some []`),
not a fault (`none`). -/
theorem compute_x_positions_zero_counterexample :
    compute_x_positions 50 2 0 ≠ none ∧ compute_x_positions 50 2 0 = some [] := by
  constructor
  · intro h
    exact Option.noConfusion h
  · rfl

/-- C2 (amended): when the window count is `0`, `compute_x_positions`
returns the empty list normally for every panel width and window width;
the division by the count is never reached. -/
theorem compute_x_positions_zero_amended (panel_width window_width : ℝ) :
    compute_x_positions panel_width window_width 0 = some [] := rfl

/-- C4: for `n ≥ 1` and `panelWidth > 0`, `compute_x_positions` returns a
normal result of exactly `n` values, and the value at position `j` is the
one computed for window index `j`. -/
theorem compute_x_positions_count (n : ℕ) (hn : 1 ≤ n)
    (panel_width window_width : ℝ) (hpw : 0 < panel_width) :
    ∃ xs, compute_x_positions panel_width window_width n = some xs ∧
      xs.length = n ∧
      ∀ j, j < n → xs[j]? = some (window_x_pure panel_width window_width n j) := by
  refine ⟨(List.range n).map (window_x_pure panel_width window_width n),
    compute_x_positions_eq_map panel_width window_width (by omega), ?_, ?_⟩
  · rw [List.length_map, List.length_range]
  · intro j hj
    rw [List.getElem?_map, List.getElem?_range hj]
    rfl

theorem compute_x_positions_count_witness :
    (1 ≤ 5 ∧ (0:ℝ) < 50) ∧
    (∃ xs, compute_x_positions 50 2 5 = some xs ∧ xs.length = 5 ∧
      ∀ j, j < 5 → xs[j]? = some (window_x_pure 50 2 5 j)) :=
  ⟨⟨by norm_num, by norm_num⟩,
    compute_x_positions_count 5 (by norm_num) 50 2 (by norm_num)⟩

/-- C9: for every positive integer `k`, the ideal window count at panel
width `2π·k` is exactly `k`. -/
theorem ideal_windows_two_pi_mul (k : ℕ) (hk : 0 < k) :
    ideal_windows (2 * Real.pi * k) = k := by
  have h2pi : (2 * Real.pi) ≠ 0 := by positivity
  have harg : (2 * Real.pi * k) / fourier_period = (k : ℝ) := by
    rw [fourier_period]
    field_simp
  rw [ideal_windows, harg, py_round, Int.floor_natCast]
  rw [if_neg (by push_cast; norm_num)]
  exact round_natCast k

theorem ideal_windows_two_pi_mul_witness :
    0 < 1 ∧ ideal_windows (2 * Real.pi * (1 : ℕ)) = (1 : ℕ) :=
  ⟨by norm_num, ideal_windows_two_pi_mul 1 (by norm_num)⟩

/-- C10: for every `panelWidth > 0` and any window width, the call with
window count `0` completes normally with the empty list: the loop body
containing the division by the count never executes. -/
theorem compute_x_positions_zero_normal (panel_width window_width : ℝ)
    (hpw : 0 < panel_width) :
    compute_x_positions panel_width window_width 0 = some [] := rfl

theorem compute_x_positions_zero_normal_witness :
    (0:ℝ) < 50 ∧ compute_x_positions 50 2 0 = some [] :=
  ⟨by norm_num, compute_x_positions_zero_normal 50 2 (by norm_num)⟩

end App22

namespace App22

theorem f_deviation_le (x : ℝ) : |f x - 2.79909091| ≤ 2.00938 := by
  have hpyth : Real.sin x ^ 2 + Real.cos x ^ 2 = 1 := Real.sin_sq_add_cos_sq x
  have hcos2 : Real.cos (2 * x) = 2 * Real.cos x ^ 2 - 1 := Real.cos_two_mul x
  rw [f, hcos2, abs_le]
  constructor
  · nlinarith [hpyth, sq_nonneg (10 * Real.cos x + 1), sq_nonneg (Real.sin x - 1),
      sq_nonneg (Real.cos x), sq_nonneg (Real.sin x)]
  · nlinarith [hpyth, sq_nonneg (Real.cos x - 1), sq_nonneg (Real.sin x + 1),
      sq_nonneg (Real.cos x), sq_nonneg (Real.sin x)]

/-- C5: the normalised modulation is bounded by `1` in absolute value at
every real argument, so before clamping every modulated x-position differs
from its base position by at most `1.0` metre. -/
theorem normalized_f_bounded :
    (∀ u : ℝ, |normalized_f u| ≤ 1) ∧
    ∀ (panel_width : ℝ) (num j : ℕ),
      |x_modulated panel_width num j - base_x panel_width num j| ≤ 1 := by
  have hnorm : ∀ u : ℝ, |normalized_f u| ≤ 1 := by
    intro u
    rw [normalized_f, abs_div, abs_of_pos (by norm_num : (0:ℝ) < 2.00938),
      div_le_one (by norm_num : (0:ℝ) < 2.00938)]
    exact f_deviation_le u
  refine ⟨hnorm, ?_⟩
  intro panel_width num j
  have hdiff : x_modulated panel_width num j - base_x panel_width num j
      = 1.0 * normalized_f (mod_u num j) := by
    rw [x_modulated]
    ring
  rw [hdiff]
  calc |1.0 * normalized_f (mod_u num j)| = |normalized_f (mod_u num j)| := by
        norm_num [abs_mul]
    _ ≤ 1 := hnorm (mod_u num j)

end App22
